import Mathlib

/-!
# Verification of the hwloc distance-matrix pipeline (`src/distances.c`)

Shallow embedding of the distance-matrix pipeline of `src/distances.c`:
the per-type distance store, the environment parser's grouping shorthand,
index resolution against the topology tree, normalization of raw matrices
into logically-ordered latency matrices, and the recursive
minimum-distance grouping engine.

Modelling conventions:
* C `float` values are modelled as `ℚ`.  The pipeline only performs
  comparisons, division by the matrix minimum and averaging, so exact
  rational arithmetic mirrors the code's intent.
* Row-major `float *` matrices are modelled either as functions
  `ℕ → ℕ → ℚ` (when the code only ever reads them through `[i*n+j]`
  with `i`, `j` loop counters) or as flat functions `ℕ → ℚ` built from
  an explicit write sequence (for the normalization output, where the
  write pattern itself is what the claims are about).
* `hwloc_cpuset_t` bitmaps are modelled as `Finset ℕ`;
  `hwloc_bitmap_or` is union, `hwloc_bitmap_isequal` is equality.
* The topology tree (an external collaborator of this module) is an
  inductive rose tree carrying the attributes the module reads.
-/

set_option maxRecDepth 4096

namespace Liblstopo

/-- Attributes of a topology object (`hwloc_obj`) that `distances.c`
reads: its type, OS index, logical index, depth and cpuset. -/
structure ObjAttr where
  obj_type : ℕ
  os_index : ℕ
  logical_index : ℕ
  depth : ℕ
  cpuset : Finset ℕ
  deriving DecidableEq

instance : Inhabited ObjAttr := ⟨⟨0, 0, 0, 0, ∅⟩⟩

/-- The topology tree: an object and its children (the
`first_child`/`next_sibling` chain of hwloc, in order). -/
inductive HTree where
  | node (attr : ObjAttr) (children : List HTree)

instance : Inhabited HTree := ⟨.node default []⟩

/-- The attribute record at the root of a subtree. -/
def HTree.attr : HTree → ObjAttr
  | .node a _ => a

mutual
/-- `hwloc_find_obj_by_type_and_os_index` (distances.c:81-94): depth-first
preorder search of the whole tree for an object with the given type and
OS index; the root is tested before its children, children in order. -/
def hwloc_find_obj_by_type_and_os_index (t osi : ℕ) : HTree → Option HTree
  | .node a cs =>
    if a.obj_type = t ∧ a.os_index = osi then some (.node a cs)
    else findInChildren t osi cs

/-- The `while (child) { ... child = child->next_sibling; }` loop of
`hwloc_find_obj_by_type_and_os_index`: first successful recursive search
among the children wins. -/
def findInChildren (t osi : ℕ) : List HTree → Option HTree
  | [] => none
  | c :: rest =>
    match hwloc_find_obj_by_type_and_os_index t osi c with
    | some found => some found
    | none => findInChildren t osi rest
end

/-- One per-type slot of `topology->os_distances` (distances.c:19-22):
the object count, the raw OS-index list, the raw distance matrix
(row-major, as a function of the two loop counters) and the resolved
object sequence.  `Option` models the NULL/non-NULL pointer states. -/
structure OsDistEntry where
  nbobjs : ℕ
  indexes : Option (List ℕ)
  distances : Option (ℕ → ℕ → ℚ)
  objs : Option (List HTree)

/-- The state of a freshly initialized slot
(`hwloc_topology_distances_init`, distances.c:14-24). -/
def initOsDistEntry : OsDistEntry := ⟨0, none, none, none⟩

/-- The C `EINVAL` error code. -/
def EINVAL : ℤ := 22

/-- The duplicate-index scan of `hwloc_topology__set_distance_matrix`
(distances.c:63-71): `for(i=0; i<nbobjs; i++) for(j=i+1; j<nbobjs; j++)
if (indexes[i] == indexes[j])`. -/
def hasDupIndexes (nbobjs : ℕ) (indexes : List ℕ) : Bool :=
  (List.range nbobjs).any fun i =>
    (List.range' (i + 1) (nbobjs - (i + 1))).any fun j =>
      indexes.getD i 0 == indexes.getD j 0

/-- `hwloc_topology__set_distance_matrix` (distances.c:58-79).  Takes the
current slot for the type and the ambient `errno`; returns the C return
value, the new `errno` and the new slot.  On a duplicate index the input
buffers are freed, `errno` is set to `EINVAL` and `-1` is returned with
the slot untouched; otherwise the slot's previous `indexes`/`distances`
are freed and replaced (the `objs` field is not touched). -/
def hwloc_topology__set_distance_matrix (entry : OsDistEntry) (errno : ℤ)
    (nbobjs : ℕ) (indexes : List ℕ) (distances : ℕ → ℕ → ℚ) :
    ℤ × ℤ × OsDistEntry :=
  if hasDupIndexes nbobjs indexes then
    (-1, EINVAL, entry)
  else
    (0, errno,
      { entry with nbobjs := nbobjs, indexes := some indexes,
                   distances := some distances })

/-- The grouping-shorthand branch of `hwloc_get_type_distances_from_string`
(distances.c:138-176), entered once `sscanf(tmp, "%u*%u*%u", &x, &y, &z)`
has matched at least two values (`z` keeps its default `1` when only
`X*Y` was given, distances.c:138) and the prefix `indexes` list has been
parsed.  If `x*y*z` differs from the number of indexes the matrix is
rejected and the slot is unchanged; otherwise the synthesized 4-level
matrix is installed through `hwloc_topology__set_distance_matrix`
(whose failure also leaves the slot unchanged). -/
def hwloc_get_type_distances_from_string_grouping (entry : OsDistEntry)
    (errno : ℤ) (indexes : List ℕ) (x y z : ℕ) : OsDistEntry :=
  let nbobjs := indexes.length
  if x * y * z ≠ nbobjs then entry
  else
    let distances : ℕ → ℕ → ℚ := fun i j =>
      if i = j then 1
      else if i / z = j / z then 2
      else if i / z / y = j / z / y then 4
      else 8
    (hwloc_topology__set_distance_matrix entry errno nbobjs indexes
      distances).2.2

/-- The per-index resolution loop of
`hwloc_convert_distances_indexes_into_objects` (distances.c:221-233):
each stored OS index is looked up in the tree; the first failure frees
the partially built array and yields NULL. -/
def resolveIndexesList (root : HTree) (t : ℕ) : List ℕ → Option (List HTree)
  | [] => some []
  | i :: rest =>
    match hwloc_find_obj_by_type_and_os_index t i root with
    | none => none
    | some o =>
      match resolveIndexesList root t rest with
      | none => none
      | some os => some (o :: os)

/-- `hwloc_convert_distances_indexes_into_objects` (distances.c:213-238)
restricted to one type slot: when a raw index list is stored, the slot's
`objs` field is overwritten with the resolved sequence (or NULL when any
index failed to resolve); `nbobjs`, `indexes` and `distances` are never
written. -/
def hwloc_convert_distances_indexes_into_objects (root : HTree) (t : ℕ)
    (entry : OsDistEntry) : OsDistEntry :=
  match entry.indexes with
  | none => entry
  | some idxs => { entry with objs := resolveIndexesList root t idxs }

/-! ## LogicalNormalizer: `hwloc_setup_distances_from_os_matrix` -/

/-- A `struct hwloc_distances_s` record (the NormalizedDistances of the
spec): the latency matrix is kept flat (`latency[li*nbobjs+lj]`), exactly
as the C stores it. -/
structure hwloc_distances_s where
  relative_depth : ℕ
  nbobjs : ℕ
  latency : ℕ → ℚ
  latency_base : ℚ
  latency_max : ℚ

/-- A sequence of stores into a flat array, applied in program order
(a later store to the same cell wins, as in C). -/
def applyWrites (f : ℕ → ℚ) (ws : List (ℕ × ℚ)) : ℕ → ℚ :=
  ws.foldl (fun g w => Function.update g w.1 w.2) f

/-- The write sequence of the reindexing loop of
`hwloc_setup_distances_from_os_matrix` (distances.c:302-310): for each
`i`, store the diagonal cell `(li,li)`, then for each `j>i` store
`(li,lj)` and `(lj,li)`, where `li`/`lj` are the reindexed positions and
`v i j` is the value stored for source pair `(i,j)`. -/
def normWrites (n : ℕ) (li : ℕ → ℕ) (v : ℕ → ℕ → ℚ) : List (ℕ × ℚ) :=
  (List.range n).flatMap fun i =>
    (li i * n + li i, v i i) ::
      ((List.range' (i + 1) (n - (i + 1))).flatMap fun j =>
        [(li i * n + li j, v i j), (li j * n + li i, v j i)])

/-- The cpuset union loop of distances.c:254-256: `set` starts empty and
accumulates `objs[i]->cpuset` for `i < n`. -/
def cpusetUnion (n : ℕ) (objs : ℕ → ObjAttr) : Finset ℕ :=
  (List.range n).foldl (fun s i => s ∪ (objs i).cpuset) ∅

/-- The minimum-logical-index loop of distances.c:269-272.  `minl` is
seeded with `UINT_MAX` and lowered by every smaller logical index. -/
def minLogicalIndex (n : ℕ) (objs : ℕ → ObjAttr) : ℕ :=
  (List.range n).foldl
    (fun m i => if m > (objs i).logical_index then (objs i).logical_index else m)
    (2 ^ 32 - 1)

/-- All matrix entries in the scan order of distances.c:275-282
(row-major over the full `n × n` matrix, diagonal included). -/
def matrixEntries (n : ℕ) (d : ℕ → ℕ → ℚ) : List ℚ :=
  (List.range n).flatMap fun i => (List.range n).map fun j => d i j

/-- The `min` accumulated by the scan of distances.c:275-282.  The C
seeds with `FLT_MAX`; for the nonempty matrices the callers pass
(`nbobjs ≥ 1`, checked at distances.c:325) this equals folding `min`
from the first entry.  The empty case never arises and returns `0`. -/
def entriesMin (n : ℕ) (d : ℕ → ℕ → ℚ) : ℚ :=
  match matrixEntries n d with
  | [] => 0
  | x :: xs => xs.foldl min x

/-- The `max` accumulated by the same scan (seeded with `FLT_MIN`, the
smallest positive normal float; for matrices of latencies ≥ `FLT_MIN`
this equals folding `max` from the first entry). -/
def entriesMax (n : ℕ) (d : ℕ → ℕ → ℚ) : ℚ :=
  match matrixEntries n d with
  | [] => 0
  | x :: xs => xs.foldl max x

/-- `hwloc_setup_distances_from_os_matrix` (distances.c:240-311).  The
covering-object lookup (`hwloc_get_obj_covering_cpuset`) is an external
tree collaborator; its result is the `root` argument here, and the code
then (1) abandons unless the union of the input cpusets equals the
root's cpuset exactly, (2) abandons if the global matrix minimum is `0`,
and otherwise (3) appends one normalized record to the root's distances
list: `latency_base = min`, `latency_max = max/min`, and the flat
latency matrix written cell by cell at the logically reindexed
positions, each raw entry divided by `min`. -/
def hwloc_setup_distances_from_os_matrix (n : ℕ) (objs : ℕ → ObjAttr)
    (osmatrix : ℕ → ℕ → ℚ) (root : ObjAttr)
    (rootDistances : List hwloc_distances_s) : List hwloc_distances_s :=
  if cpusetUnion n objs ≠ root.cpuset then rootDistances
  else
    let relative_depth := (objs 0).depth - root.depth
    let minl := minLogicalIndex n objs
    let minv := entriesMin n osmatrix
    let maxv := entriesMax n osmatrix
    if minv = 0 then rootDistances
    else
      rootDistances ++
        [{ relative_depth := relative_depth
           nbobjs := n
           latency := applyWrites (fun _ => 0)
             (normWrites n (fun i => (objs i).logical_index - minl)
               (fun i j => osmatrix i j / minv))
           latency_base := minv
           latency_max := maxv / minv }]

/-! ## GroupingEngine: `hwloc_setup_group_from_min_distance` and
`hwloc__setup_groups_from_distances` -/

/-- The upper-triangle entries `d i j` for `i < j < n`, in the scan
order of distances.c:370-373. -/
def offDiagList (n : ℕ) (d : ℕ → ℕ → ℚ) : List ℚ :=
  (List.range n).flatMap fun i =>
    (List.range' (i + 1) (n - (i + 1))).map fun j => d i j

/-- The minimal distance computed at distances.c:369-374: `min_distance`
stays at its `FLT_MAX` seed (modelled by `none`) exactly when no
off-diagonal pair exists (`n ≤ 1`), in which case distances.c:376-377
returns zero groups. -/
def minOffDiag (n : ℕ) (d : ℕ → ℕ → ℚ) : Option ℚ :=
  match offDiagList n d with
  | [] => none
  | x :: xs => some (xs.foldl min x)

/-- State threaded through one expansion pass of
`hwloc_setup_group_from_min_distance`: the group-id array (a total map,
zero meaning ungrouped), the `size` counter and `newfirstfound`
(`none` = `-1`). -/
abbrev ExpState := (ℕ → ℕ) × ℕ × Option ℕ

/-- The body of the `for(k=0; k<nbobjs; k++)` loop at
distances.c:401-411, for a fixed frontier member `j`: an unassigned `k`
at exactly the minimal distance from `j` joins the group, `size` is
bumped, and `newfirstfound` records the first such `k`. -/
def innerKStep (m : ℚ) (d : ℕ → ℕ → ℚ) (gid j : ℕ) (st : ExpState)
    (k : ℕ) : ExpState :=
  if st.1 k = 0 ∧ d j k = m then
    (Function.update st.1 k gid, st.2.1 + 1,
      match st.2.2 with
      | none => some k
      | some x => some x)
  else st

/-- The body of the `for(j=firstfound; j<nbobjs; j++)` loop at
distances.c:399-411: members of the current group rescan all
connections. -/
def passJStep (n : ℕ) (m : ℚ) (d : ℕ → ℕ → ℚ) (gid : ℕ) (st : ExpState)
    (j : ℕ) : ExpState :=
  if st.1 j = gid then (List.range n).foldl (innerKStep m d gid j) st else st

/-- One iteration of the `while (firstfound != -1)` body
(distances.c:393-413): `newfirstfound` is reset to `-1`, then `j` scans
from `firstfound` to `nbobjs-1`. -/
def onePass (n : ℕ) (m : ℚ) (d : ℕ → ℕ → ℚ) (gid first : ℕ)
    (st : (ℕ → ℕ) × ℕ) : ExpState :=
  (List.range' first (n - first)).foldl (passJStep n m d gid)
    (st.1, st.2, none)

/-- The `while (firstfound != -1)` loop (distances.c:393-413).  Each
continued iteration has assigned at least one of the `n` objects to the
group, so the loop performs at most `n` passes; callers pass `n + 1`
fuel, which therefore never runs out. -/
def expandLoop (n : ℕ) (m : ℚ) (d : ℕ → ℕ → ℚ) (gid : ℕ) :
    ℕ → (ℕ → ℕ) × ℕ → ℕ → (ℕ → ℕ) × ℕ
  | 0, st, _ => st
  | fuel + 1, st, first =>
    let r := onePass n m d gid first st
    match r.2.2 with
    | none => (r.1, r.2.1)
    | some nf => expandLoop n m d gid fuel (r.1, r.2.1) nf

/-- The body of the `for(i=0; i<nbobjs; i++)` grouping loop
(distances.c:380-425): an ungrouped `i` seeds a new tentative group with
id `gid` and `size = 1`, the group is expanded transitively, then a
size-1 group is cancelled (the seed reset to ungrouped, the id counter
kept) while a larger group is committed (`groupid++`). -/
def outerStep (n : ℕ) (m : ℚ) (d : ℕ → ℕ → ℚ) (st : (ℕ → ℕ) × ℕ)
    (i : ℕ) : (ℕ → ℕ) × ℕ :=
  if st.1 i ≠ 0 then st
  else
    let st1 := expandLoop n m d st.2 (n + 1) (Function.update st.1 i st.2, 1) i
    if st1.2 = 1 then (Function.update st1.1 i 0, st.2)
    else (st1.1, st.2 + 1)

/-- `hwloc_setup_group_from_min_distance` (distances.c:357-429): returns
the number of committed groups and the group-id map (zero-initialized by
the `memset` at distances.c:367; ids start at 1).  The returned count is
`groupid - 1` (distances.c:428). -/
def hwloc_setup_group_from_min_distance (n : ℕ) (d : ℕ → ℕ → ℚ) :
    ℕ × (ℕ → ℕ) :=
  match minOffDiag n d with
  | none => (0, fun _ => 0)
  | some m =>
    let r := (List.range n).foldl (outerStep n m d) (fun _ => 0, 1)
    (r.2 - 1, r.1)

/-- A synthesized `HWLOC_OBJ_GROUP` tree node as created at
distances.c:470-486: its cpuset and its `attr->group.depth` tag. -/
structure GroupNode where
  cpuset : Finset ℕ
  group_depth : ℕ
  deriving DecidableEq

/-- The member positions of group `g` (ids are `g+1` in the groupids
array), in scan order of the `for (j=0; j<nbobjs; j++)` loop at
distances.c:477-481. -/
def groupMembers (n g : ℕ) (gids : ℕ → ℕ) : List ℕ :=
  (List.range n).filter fun j => gids j = g + 1

/-- The cpuset of the Group object for group `g`: the
`hwloc_bitmap_or` accumulation at distances.c:479 over the members,
starting from the zeroed bitmap of distances.c:474-475. -/
def groupCpuset (n g : ℕ) (gids : ℕ → ℕ) (objs : ℕ → Finset ℕ) : Finset ℕ :=
  (groupMembers n g gids).foldl (fun s j => s ∪ objs j) ∅

/-- `groupsizes[g]`, accumulated by the same loop (distances.c:480). -/
def groupSize (n g : ℕ) (gids : ℕ → ℕ) : ℕ :=
  (groupMembers n g gids).length

/-- The factorized distance matrix of distances.c:488-495:
`groupdistances[a][b]` accumulates `d i j` over every source pair with
`groupids[i]-1 = a` and `groupids[j]-1 = b`, then is divided by
`groupsizes[a]*groupsizes[b]`.  The C subtraction is on `unsigned`; an
ungrouped position (`groupids[i] = 0`) makes the C index wrap to
`UINT_MAX` and the accumulation write out of bounds (see the C10
analysis); the model uses truncated `ℕ` subtraction, which the claims
only evaluate on fully grouped inputs. -/
def factorizedDistances (n : ℕ) (gids : ℕ → ℕ) (d : ℕ → ℕ → ℚ) :
    ℕ → ℕ → ℚ := fun a b =>
  ((((List.range n).flatMap fun i => (List.range n).map fun j => (i, j)).filter
      fun p => gids p.1 - 1 = a ∧ gids p.2 - 1 = b).foldl
    (fun s p => s + d p.1 p.2) 0) /
    (groupSize n a gids * groupSize n b gids)

/-- `hwloc__setup_groups_from_distances` (distances.c:436-512): returns
the list of Group objects inserted into the tree, across all recursion
levels.  Recursion depth is bounded by an explicit `fuel` parameter:
each recursive invocation is on the committed group count, which is at
most half the object count (`twice_groups_le_nbobjs` below), so the
wrapper's initial fuel `nbobjs` always reaches the natural stopping
point (`setup_groups_rec_fuel_stable` below). -/
def hwloc__setup_groups_from_distances (fuel : ℕ) (n : ℕ)
    (objs : ℕ → Finset ℕ) (d : ℕ → ℕ → ℚ) (depth : ℕ) : List GroupNode :=
  match fuel with
  | 0 => []
  | fuel + 1 =>
    if n ≤ 2 then []
    else
      let r := hwloc_setup_group_from_min_distance n d
      if r.1 = 0 then []
      else if r.1 = 1 then []
      else
        let nodes := (List.range r.1).map fun g =>
          GroupNode.mk (groupCpuset n g r.2 objs) depth
        nodes ++
          hwloc__setup_groups_from_distances fuel r.1
            (fun g => groupCpuset n g r.2 objs)
            (factorizedDistances n r.2 d) (depth + 1)

/-- The sanity check of `hwloc_setup_groups_from_distances`
(distances.c:543-559): every upper-triangle pair must be symmetric and
strictly larger than the diagonal entry of its row `i`. -/
def matrixValidCheck (n : ℕ) (d : ℕ → ℕ → ℚ) : Bool :=
  (List.range n).all fun i =>
    (List.range' (i + 1) (n - (i + 1))).all fun j =>
      d i j == d j i && d i i < d i j

/-- `hwloc_setup_groups_from_distances` (distances.c:517-562).
`ignore_env` is the `HWLOC_IGNORE_DISTANCES` environment switch, read
once (distances.c:526-527).  A failed sanity check aborts before any
grouping; otherwise the recursive grouping runs at depth 0. -/
def hwloc_setup_groups_from_distances (ignore_env : Bool) (n : ℕ)
    (objs : ℕ → Finset ℕ) (d : ℕ → ℕ → ℚ) : List GroupNode :=
  if ignore_env then []
  else if matrixValidCheck n d then
    hwloc__setup_groups_from_distances n n objs d 0
  else []

/-! ## Lemmas about the flat write sequence of the normalizer -/

theorem applyWrites_nil (f : ℕ → ℚ) : applyWrites f [] = f := rfl

theorem applyWrites_of_not_mem (ws : List (ℕ × ℚ)) (f : ℕ → ℚ) (k : ℕ)
    (h : ∀ p ∈ ws, p.1 ≠ k) : applyWrites f ws k = f k := by
  induction ws generalizing f with
  | nil => rfl
  | cons w t ih =>
    have hw : w.1 ≠ k := h w (List.mem_cons_self w t)
    have ht : ∀ p ∈ t, p.1 ≠ k := fun p hp => h p (List.mem_cons_of_mem w hp)
    simp only [applyWrites, List.foldl_cons] at *
    rw [ih _ ht, Function.update_noteq (Ne.symm hw)]

theorem applyWrites_of_mem (ws : List (ℕ × ℚ)) :
    ∀ (f : ℕ → ℚ) (k : ℕ) (v : ℚ), (k, v) ∈ ws →
      (∀ p ∈ ws, p.1 = k → p.2 = v) → applyWrites f ws k = v := by
  induction ws with
  | nil =>
    intro f k v hmem _
    cases hmem
  | cons w t ih =>
    intro f k v hmem huniq
    simp only [applyWrites, List.foldl_cons]
    by_cases hk : ∃ p ∈ t, p.1 = k
    · obtain ⟨p, hp, hpk⟩ := hk
      have hpv : p.2 = v := huniq p (List.mem_cons_of_mem w hp) hpk
      have hmem' : (k, v) ∈ t := by
        have hpkv : p = (k, v) := by
          cases p
          simp_all
        exact hpkv ▸ hp
      exact ih _ k v hmem' (fun q hq hqk => huniq q (List.mem_cons_of_mem w hq) hqk)
    · push_neg at hk
      have hres : applyWrites (Function.update f w.1 w.2) t k =
          Function.update f w.1 w.2 k :=
        applyWrites_of_not_mem t _ k hk
      simp only [applyWrites] at hres
      rw [hres]
      have hw : w = (k, v) := by
        rcases List.mem_cons.mp hmem with h | h
        · exact h.symm
        · exact absurd rfl (hk (k, v) h)
      rw [hw]
      simp

/-- Every write of the normalization loop targets a cell
`(li a, li b)` with `a, b < n` and carries the value `v a b`. -/
theorem normWrites_shape (n : ℕ) (li : ℕ → ℕ) (v : ℕ → ℕ → ℚ)
    (p : ℕ × ℚ) (hp : p ∈ normWrites n li v) :
    ∃ a b, a < n ∧ b < n ∧ p = (li a * n + li b, v a b) := by
  simp only [normWrites, List.mem_flatMap, List.mem_range] at hp
  obtain ⟨i, hi, hpi⟩ := hp
  rcases List.mem_cons.mp hpi with h | h
  · exact ⟨i, i, hi, hi, h⟩
  · simp only [List.mem_flatMap, List.mem_range'_1] at h
    obtain ⟨j, ⟨hj1, hj2⟩, hpj⟩ := h
    have hjn : j < n := by omega
    rcases List.mem_cons.mp hpj with h2 | h2
    · exact ⟨i, j, hi, hjn, h2⟩
    · rcases List.mem_cons.mp h2 with h3 | h3
      · exact ⟨j, i, hjn, hi, h3⟩
      · cases h3

theorem mem_normWrites_diag (n : ℕ) (li : ℕ → ℕ) (v : ℕ → ℕ → ℚ)
    (i : ℕ) (hi : i < n) : (li i * n + li i, v i i) ∈ normWrites n li v := by
  simp only [normWrites, List.mem_flatMap, List.mem_range]
  exact ⟨i, hi, List.mem_cons_self _ _⟩

theorem mem_normWrites_upper (n : ℕ) (li : ℕ → ℕ) (v : ℕ → ℕ → ℚ)
    (i j : ℕ) (hij : i < j) (hj : j < n) :
    (li i * n + li j, v i j) ∈ normWrites n li v := by
  simp only [normWrites, List.mem_flatMap, List.mem_range]
  refine ⟨i, by omega, List.mem_cons_of_mem _ ?_⟩
  simp only [List.mem_flatMap, List.mem_range'_1]
  exact ⟨j, ⟨by omega, by omega⟩, List.mem_cons_self _ _⟩

theorem mem_normWrites_lower (n : ℕ) (li : ℕ → ℕ) (v : ℕ → ℕ → ℚ)
    (i j : ℕ) (hij : i < j) (hj : j < n) :
    (li j * n + li i, v j i) ∈ normWrites n li v := by
  simp only [normWrites, List.mem_flatMap, List.mem_range]
  refine ⟨i, by omega, List.mem_cons_of_mem _ ?_⟩
  simp only [List.mem_flatMap, List.mem_range'_1]
  exact ⟨j, ⟨by omega, by omega⟩, List.mem_cons_of_mem _ (List.mem_cons_self _ _)⟩

/-- Uniqueness of the row-major encoding `x * n + y` with `y < n`. -/
theorem flat_key_inj (n x y x' y' : ℕ) (hy : y < n) (hy' : y' < n)
    (h : x * n + y = x' * n + y') : x = x' ∧ y = y' := by
  have hn : 0 < n := by omega
  constructor
  · have h1 : (x * n + y) / n = x := by
      rw [Nat.mul_comm x n, Nat.mul_add_div hn, Nat.div_eq_of_lt hy, Nat.add_zero]
    have h2 : (x' * n + y') / n = x' := by
      rw [Nat.mul_comm x' n, Nat.mul_add_div hn, Nat.div_eq_of_lt hy', Nat.add_zero]
    rw [← h1, ← h2, h]
  · have h1 : (x * n + y) % n = y := by
      rw [Nat.mul_comm, Nat.mul_add_mod, Nat.mod_eq_of_lt hy]
    have h2 : (x' * n + y') % n = y' := by
      rw [Nat.mul_comm, Nat.mul_add_mod, Nat.mod_eq_of_lt hy']
    rw [← h1, ← h2, h]

/-- Reading back the normalized matrix: under the tree invariants that
the reindexed positions are injective and in range, cell
`(li a, li b)` holds exactly the value stored for source pair `(a, b)`. -/
theorem normWrites_lookup (n : ℕ) (li : ℕ → ℕ) (v : ℕ → ℕ → ℚ) (f : ℕ → ℚ)
    (hli : ∀ a, a < n → li a < n)
    (hinj : ∀ a b, a < n → b < n → li a = li b → a = b)
    (a b : ℕ) (ha : a < n) (hb : b < n) :
    applyWrites f (normWrites n li v) (li a * n + li b) = v a b := by
  have hmem : (li a * n + li b, v a b) ∈ normWrites n li v := by
    rcases Nat.lt_trichotomy a b with h | h | h
    · exact mem_normWrites_upper n li v a b h hb
    · exact h ▸ mem_normWrites_diag n li v a ha
    · exact mem_normWrites_lower n li v b a h ha
  refine applyWrites_of_mem _ f _ _ hmem ?_
  intro p hp hkey
  obtain ⟨a', b', ha', hb', hpform⟩ := normWrites_shape n li v p hp
  subst hpform
  simp only at hkey ⊢
  obtain ⟨h1, h2⟩ := flat_key_inj n (li a') (li b') (li a) (li b)
    (hli b' hb') (hli b hb) hkey
  rw [hinj a' a ha' ha h1, hinj b' b hb' hb h2]

/-! ## Lemmas about the duplicate-index scan and the tree search -/

/-- The nested duplicate scan of distances.c:64-66 fires exactly on a
pair of equal entries at positions `i < j < nbobjs`. -/
theorem hasDupIndexes_eq_true_iff (nbobjs : ℕ) (indexes : List ℕ) :
    hasDupIndexes nbobjs indexes = true ↔
      ∃ i j, i < j ∧ j < nbobjs ∧ indexes.getD i 0 = indexes.getD j 0 := by
  simp only [hasDupIndexes, List.any_eq_true, List.mem_range, List.mem_range'_1,
    beq_iff_eq]
  constructor
  · rintro ⟨i, hi, j, ⟨hj1, hj2⟩, he⟩
    exact ⟨i, j, by omega, by omega, he⟩
  · rintro ⟨i, j, hij, hj, he⟩
    exact ⟨i, by omega, j, ⟨by omega, by omega⟩, he⟩

/-- Soundness of the tree search, by strong induction on the size of the
searched tree/forest: a found object really has the requested type and
OS index. -/
theorem find_sound_aux (N : ℕ) :
    (∀ tr : HTree, sizeOf tr ≤ N → ∀ t osi o,
        hwloc_find_obj_by_type_and_os_index t osi tr = some o →
        o.attr.obj_type = t ∧ o.attr.os_index = osi) ∧
    (∀ l : List HTree, sizeOf l ≤ N → ∀ t osi o,
        findInChildren t osi l = some o →
        o.attr.obj_type = t ∧ o.attr.os_index = osi) := by
  induction N with
  | zero =>
    constructor
    · intro tr hsz
      cases tr with
      | node a cs =>
        simp only [HTree.node.sizeOf_spec] at hsz
        omega
    · intro l hsz
      cases l with
      | nil =>
        intro t osi o h
        simp [findInChildren] at h
      | cons c rest =>
        simp only [List.cons.sizeOf_spec] at hsz
        omega
  | succ N ih =>
    constructor
    · intro tr hsz t osi o h
      cases tr with
      | node a cs =>
        rw [hwloc_find_obj_by_type_and_os_index] at h
        split at h
        · rename_i hcond
          cases h
          exact ⟨hcond.1, hcond.2⟩
        · have hcs : sizeOf cs ≤ N := by
            simp only [HTree.node.sizeOf_spec] at hsz
            omega
          exact ih.2 cs hcs t osi o h
    · intro l hsz t osi o h
      cases l with
      | nil => simp [findInChildren] at h
      | cons c rest =>
        rw [findInChildren] at h
        have hc : sizeOf c ≤ N := by
          simp only [List.cons.sizeOf_spec] at hsz
          omega
        have hrest : sizeOf rest ≤ N := by
          simp only [List.cons.sizeOf_spec] at hsz
          omega
        cases hfind : hwloc_find_obj_by_type_and_os_index t osi c with
        | some found =>
          rw [hfind] at h
          cases h
          exact ih.1 c hc t osi _ hfind
        | none =>
          rw [hfind] at h
          exact ih.2 rest hrest t osi o h

/-- An object found by `hwloc_find_obj_by_type_and_os_index` matches the
requested `(type, os_index)` pair. -/
theorem find_sound (tr : HTree) (t osi : ℕ) (o : HTree)
    (h : hwloc_find_obj_by_type_and_os_index t osi tr = some o) :
    o.attr.obj_type = t ∧ o.attr.os_index = osi :=
  (find_sound_aux (sizeOf tr)).1 tr le_rfl t osi o h

/-- The resolution loop fails exactly when some stored index has no
matching object in the tree. -/
theorem resolveIndexesList_eq_none_iff (root : HTree) (t : ℕ)
    (idxs : List ℕ) :
    resolveIndexesList root t idxs = none ↔
      ∃ i ∈ idxs, hwloc_find_obj_by_type_and_os_index t i root = none := by
  induction idxs with
  | nil => simp [resolveIndexesList]
  | cons i rest ih =>
    cases hfind : hwloc_find_obj_by_type_and_os_index t i root with
    | none =>
      constructor
      · intro _
        exact ⟨i, List.mem_cons_self i rest, hfind⟩
      · intro _
        simp [resolveIndexesList, hfind]
    | some o =>
      cases hrec : resolveIndexesList root t rest with
      | none =>
        constructor
        · intro _
          obtain ⟨i', hi', hni'⟩ := ih.mp hrec
          exact ⟨i', List.mem_cons_of_mem i hi', hni'⟩
        · intro _
          simp [resolveIndexesList, hfind, hrec]
      | some os =>
        constructor
        · intro hcontra
          simp [resolveIndexesList, hfind, hrec] at hcontra
        · rintro ⟨i', hi', hni'⟩
          rcases List.mem_cons.mp hi' with h | h
          · rw [h] at hni'
            rw [hni'] at hfind
            cases hfind
          · have hnone : resolveIndexesList root t rest = none :=
              ih.mpr ⟨i', h, hni'⟩
            rw [hnone] at hrec
            cases hrec

/-- On success the resolved sequence has the same length and order as
the stored indexes: position `k` holds exactly the object found for
index `k`. -/
theorem resolveIndexesList_some (root : HTree) (t : ℕ) :
    ∀ (idxs : List ℕ) (os : List HTree),
      resolveIndexesList root t idxs = some os →
      os.length = idxs.length ∧
        ∀ k, k < idxs.length →
          hwloc_find_obj_by_type_and_os_index t (idxs.getD k 0) root =
            some (os.getD k default) := by
  intro idxs
  induction idxs with
  | nil =>
    intro os h
    simp only [resolveIndexesList, Option.some.injEq] at h
    subst h
    refine ⟨rfl, ?_⟩
    intro k hk
    simp at hk
  | cons i rest ih =>
    intro os h
    simp only [resolveIndexesList] at h
    cases hfind : hwloc_find_obj_by_type_and_os_index t i root with
    | none =>
      rw [hfind] at h
      cases h
    | some o =>
      rw [hfind] at h
      cases hrec : resolveIndexesList root t rest with
      | none =>
        rw [hrec] at h
        cases h
      | some os' =>
        rw [hrec] at h
        simp only [Option.some.injEq] at h
        subst h
        obtain ⟨hlen, hk⟩ := ih os' hrec
        refine ⟨by simp [hlen], ?_⟩
        intro k hklt
        cases k with
        | zero => simpa using hfind
        | succ k' =>
          simp only [List.getD_cons_succ]
          exact hk k' (by simpa using hklt)

/-! ## Invariants of the minimum-distance clustering loop

The claims about termination (C9) rest on the fact that every committed
group has at least two members, so the committed group count is at most
half the object count.  The proofs below follow the loop structure of
`hwloc_setup_group_from_min_distance`. -/

/-- The number of positions below `n` currently assigned group id `g`. -/
def gcount (n g : ℕ) (f : ℕ → ℕ) : ℕ :=
  ((Finset.range n).filter fun p => f p = g).card

theorem gcount_congr (n g : ℕ) (f f' : ℕ → ℕ) (h : ∀ p, p < n → f p = f' p) :
    gcount n g f = gcount n g f' := by
  unfold gcount
  congr 1
  apply Finset.filter_congr
  intro p hp
  rw [h p (Finset.mem_range.mp hp)]

theorem gcount_eq_zero_of_forall (n g : ℕ) (f : ℕ → ℕ)
    (h : ∀ p, p < n → f p ≠ g) : gcount n g f = 0 := by
  unfold gcount
  rw [Finset.card_eq_zero, Finset.filter_eq_empty_iff]
  intro p hp
  exact h p (Finset.mem_range.mp hp)

theorem gcount_update_of_zero (n g p : ℕ) (f : ℕ → ℕ) (hp : p < n)
    (hfp : f p ≠ g) :
    gcount n g (Function.update f p g) = gcount n g f + 1 := by
  unfold gcount
  have hset : (Finset.range n).filter (fun q => Function.update f p g q = g) =
      insert p ((Finset.range n).filter fun q => f q = g) := by
    ext q
    by_cases hq : q = p
    · subst hq
      simp [Function.update_same, Finset.mem_range.mpr hp]
    · simp only [Finset.mem_filter, Finset.mem_insert, Finset.mem_range,
        Function.update_noteq hq]
      tauto
  rw [hset, Finset.card_insert_of_not_mem]
  simp [hfp]

theorem gcount_update_other (n g p v : ℕ) (f : ℕ → ℕ) (hfp : f p ≠ g)
    (hv : v ≠ g) : gcount n g (Function.update f p v) = gcount n g f := by
  unfold gcount
  congr 1
  ext q
  by_cases hq : q = p
  · subst hq
    simp [Function.update_same, hv, hfp]
  · simp [Function.update_noteq hq]

/-- The growth relation maintained by the transitive expansion of one
group: positions either keep their id or go from ungrouped to the
current id, in-range only, and the `size` counter moves in lockstep
with the number of positions carrying the current id. -/
def ExpGrows (n gid : ℕ) (a b : (ℕ → ℕ) × ℕ) : Prop :=
  (∀ p, b.1 p = a.1 p ∨ (p < n ∧ a.1 p = 0 ∧ b.1 p = gid)) ∧
  b.2 + gcount n gid a.1 = a.2 + gcount n gid b.1

theorem ExpGrows.refl (n gid : ℕ) (a : (ℕ → ℕ) × ℕ) : ExpGrows n gid a a :=
  ⟨fun _ => Or.inl rfl, rfl⟩

theorem ExpGrows.trans (n gid : ℕ) (hgid : gid ≠ 0) (a b c : (ℕ → ℕ) × ℕ)
    (hab : ExpGrows n gid a b) (hbc : ExpGrows n gid b c) :
    ExpGrows n gid a c := by
  constructor
  · intro p
    rcases hbc.1 p with h1 | ⟨hpn, hb0, hc⟩
    · rcases hab.1 p with h2 | ⟨hpn, ha0, hb⟩
      · exact Or.inl (h1.trans h2)
      · exact Or.inr ⟨hpn, ha0, h1.trans hb⟩
    · rcases hab.1 p with h2 | ⟨_, ha0, hb⟩
      · exact Or.inr ⟨hpn, h2 ▸ hb0, hc⟩
      · rw [hb] at hb0
        exact absurd hb0 hgid
  · have h1 := hab.2
    have h2 := hbc.2
    omega

/-- Positions already carrying the current id are stable under the
growth relation. -/
theorem ExpGrows.stable (n gid : ℕ) (a b : (ℕ → ℕ) × ℕ)
    (h : ExpGrows n gid a b) (p : ℕ) (hp : a.1 p ≠ 0) : b.1 p = a.1 p := by
  rcases h.1 p with h1 | ⟨_, h0, _⟩
  · exact h1
  · exact absurd h0 hp

/-- Counts of other (nonzero) group ids are untouched by the expansion
of the current group. -/
theorem ExpGrows.count_other (n gid : ℕ) (a b : (ℕ → ℕ) × ℕ)
    (h : ExpGrows n gid a b) (g : ℕ) (hg0 : g ≠ 0) (hgg : g ≠ gid) :
    gcount n g b.1 = gcount n g a.1 := by
  unfold gcount
  congr 1
  ext q
  simp only [Finset.mem_filter, Finset.mem_range, and_congr_right_iff]
  intro _
  constructor
  · intro hbq
    rcases h.1 q with h1 | ⟨_, _, hbg⟩
    · rw [← h1, hbq]
    · rw [hbq] at hbg
      exact absurd hbg hgg
  · intro haq
    rcases h.1 q with h1 | ⟨_, ha0, _⟩
    · rw [h1, haq]
    · rw [haq] at ha0
      exact absurd ha0 hg0

/-- The expansion never decreases the current group's population. -/
theorem ExpGrows.count_mono (n gid : ℕ) (hgid : gid ≠ 0)
    (a b : (ℕ → ℕ) × ℕ) (h : ExpGrows n gid a b) :
    gcount n gid a.1 ≤ gcount n gid b.1 := by
  unfold gcount
  apply Finset.card_le_card
  intro p hp
  simp only [Finset.mem_filter, Finset.mem_range] at hp ⊢
  refine ⟨hp.1, ?_⟩
  have := ExpGrows.stable n gid a b h p (hp.2 ▸ hgid)
  rw [this, hp.2]

theorem expGrows_innerKStep (n gid : ℕ) (hgid : gid ≠ 0) (m : ℚ)
    (d : ℕ → ℕ → ℚ) (j k : ℕ) (hk : k < n) (st : ExpState) :
    ExpGrows n gid (st.1, st.2.1)
      ((innerKStep m d gid j st k).1, (innerKStep m d gid j st k).2.1) := by
  by_cases hcond : st.1 k = 0 ∧ d j k = m
  · simp only [innerKStep, if_pos hcond]
    constructor
    · intro p
      by_cases hp : p = k
      · subst hp
        exact Or.inr ⟨hk, hcond.1, Function.update_same _ _ _⟩
      · exact Or.inl (Function.update_noteq hp _ _)
    · simp only
      rw [gcount_update_of_zero n gid k st.1 hk (by rw [hcond.1]; exact Ne.symm hgid)]
      omega
  · simp only [innerKStep, if_neg hcond]
    exact ExpGrows.refl _ _ _

theorem expGrows_foldl_inner (n gid : ℕ) (hgid : gid ≠ 0) (m : ℚ)
    (d : ℕ → ℕ → ℚ) (j : ℕ) (l : List ℕ) (hl : ∀ k ∈ l, k < n) :
    ∀ st : ExpState,
      ExpGrows n gid (st.1, st.2.1)
        ((l.foldl (innerKStep m d gid j) st).1,
         (l.foldl (innerKStep m d gid j) st).2.1) := by
  induction l with
  | nil =>
    intro st
    exact ExpGrows.refl _ _ _
  | cons k t ih =>
    intro st
    simp only [List.foldl_cons]
    refine ExpGrows.trans n gid hgid _ _ _
      (expGrows_innerKStep n gid hgid m d j k (hl k (List.mem_cons_self k t)) st)
      (ih (fun q hq => hl q (List.mem_cons_of_mem k hq)) _)

theorem expGrows_passJStep (n gid : ℕ) (hgid : gid ≠ 0) (m : ℚ)
    (d : ℕ → ℕ → ℚ) (st : ExpState) (j : ℕ) :
    ExpGrows n gid (st.1, st.2.1)
      ((passJStep n m d gid st j).1, (passJStep n m d gid st j).2.1) := by
  by_cases hj : st.1 j = gid
  · simp only [passJStep, if_pos hj]
    exact expGrows_foldl_inner n gid hgid m d j (List.range n)
      (fun k hk => List.mem_range.mp hk) st
  · simp only [passJStep, if_neg hj]
    exact ExpGrows.refl _ _ _

theorem expGrows_foldl_pass (n gid : ℕ) (hgid : gid ≠ 0) (m : ℚ)
    (d : ℕ → ℕ → ℚ) (l : List ℕ) :
    ∀ st : ExpState,
      ExpGrows n gid (st.1, st.2.1)
        ((l.foldl (passJStep n m d gid) st).1,
         (l.foldl (passJStep n m d gid) st).2.1) := by
  induction l with
  | nil =>
    intro st
    exact ExpGrows.refl _ _ _
  | cons j t ih =>
    intro st
    simp only [List.foldl_cons]
    exact ExpGrows.trans n gid hgid _ _ _
      (expGrows_passJStep n gid hgid m d st j) (ih _)

theorem expGrows_onePass (n gid : ℕ) (hgid : gid ≠ 0) (m : ℚ)
    (d : ℕ → ℕ → ℚ) (first : ℕ) (st : (ℕ → ℕ) × ℕ) :
    ExpGrows n gid st
      ((onePass n m d gid first st).1, (onePass n m d gid first st).2.1) := by
  unfold onePass
  exact expGrows_foldl_pass n gid hgid m d _ (st.1, st.2, none)

theorem expGrows_expandLoop (n gid : ℕ) (hgid : gid ≠ 0) (m : ℚ)
    (d : ℕ → ℕ → ℚ) :
    ∀ (fuel : ℕ) (st : (ℕ → ℕ) × ℕ) (first : ℕ),
      ExpGrows n gid st (expandLoop n m d gid fuel st first) := by
  intro fuel
  induction fuel with
  | zero =>
    intro st first
    exact ExpGrows.refl _ _ _
  | succ fuel ih =>
    intro st first
    rw [expandLoop]
    cases hr : (onePass n m d gid first st).2.2 with
    | none =>
      simp only [hr]
      exact expGrows_onePass n gid hgid m d first st
    | some nf =>
      simp only [hr]
      exact ExpGrows.trans n gid hgid _ _ _
        (expGrows_onePass n gid hgid m d first st) (ih _ nf)

/-- The invariant maintained between iterations of the outer grouping
loop: the next group id is at least 1, every assigned id is a previously
committed one, every committed id has at least two members, and only
in-range positions are ever assigned. -/
structure OuterInv (n : ℕ) (st : (ℕ → ℕ) × ℕ) : Prop where
  pos : 1 ≤ st.2
  lt : ∀ p, st.1 p ≠ 0 → st.1 p < st.2
  big : ∀ g, 1 ≤ g → g < st.2 → 2 ≤ gcount n g st.1
  oob : ∀ p, n ≤ p → st.1 p = 0

theorem outerStep_inv (n : ℕ) (m : ℚ) (d : ℕ → ℕ → ℚ)
    (st : (ℕ → ℕ) × ℕ) (i : ℕ) (hi : i < n) (hinv : OuterInv n st) :
    OuterInv n (outerStep n m d st i) := by
  by_cases hskip : st.1 i ≠ 0
  · simp only [outerStep, if_pos hskip]
    exact hinv
  · push_neg at hskip
    simp only [outerStep, if_neg (not_not_intro hskip)]
    have hgid0 : st.2 ≠ 0 := by
      have := hinv.pos
      omega
    have hga : gcount n st.2 (Function.update st.1 i st.2) = 1 := by
      rw [gcount_update_of_zero n st.2 i st.1 hi
        (by rw [hskip]; exact Ne.symm hgid0)]
      rw [gcount_eq_zero_of_forall]
      intro p _ hpg
      have := hinv.lt p (by rw [hpg]; exact hgid0)
      omega
    have hgrow := expGrows_expandLoop n st.2 hgid0 m d (n + 1)
      (Function.update st.1 i st.2, 1) i
    set st1 := expandLoop n m d st.2 (n + 1) (Function.update st.1 i st.2, 1) i
      with hst1
    have hsync : st1.2 = gcount n st.2 st1.1 := by
      have h2 := hgrow.2
      simp only at h2
      rw [hga] at h2
      omega
    have hii : st1.1 i = st.2 := by
      have hstable : st1.1 i = (Function.update st.1 i st.2, 1).1 i :=
        ExpGrows.stable n st.2 _ _ hgrow i (by simpa using hgid0)
      simpa using hstable
    by_cases hsize : st1.2 = 1
    · simp only [if_pos hsize]
      have hc1 : gcount n st.2 st1.1 = 1 := by omega
      have hpts : ∀ p, p ≠ i → st1.1 p = st.1 p := by
        intro p hp
        rcases hgrow.1 p with h1 | ⟨hpn, _, hpg⟩
        · rw [h1]
          exact Function.update_noteq hp _ _
        · exfalso
          have hsub : ({p, i} : Finset ℕ) ⊆
              (Finset.range n).filter fun q => st1.1 q = st.2 := by
            intro q hq
            simp only [Finset.mem_insert, Finset.mem_singleton] at hq
            rcases hq with hq | hq <;> subst hq
            · exact Finset.mem_filter.mpr ⟨Finset.mem_range.mpr hpn, hpg⟩
            · exact Finset.mem_filter.mpr ⟨Finset.mem_range.mpr hi, hii⟩
          have hcard2 : ({p, i} : Finset ℕ).card = 2 := by
            rw [Finset.card_insert_of_not_mem (by simp [hp]),
              Finset.card_singleton]
          have := Finset.card_le_card hsub
          rw [hcard2] at this
          unfold gcount at hc1
          omega
      constructor
      · exact hinv.pos
      · intro p hp
        have hp' : Function.update st1.1 i 0 p ≠ 0 := hp
        show Function.update st1.1 i 0 p < st.2
        by_cases hpi : p = i
        · subst hpi
          rw [Function.update_same] at hp'
          exact absurd rfl hp'
        · rw [Function.update_noteq hpi] at hp' ⊢
          rw [hpts p hpi] at hp' ⊢
          exact hinv.lt p hp'
      · intro g hg1 hg2
        have hg2' : g < st.2 := hg2
        show 2 ≤ gcount n g (Function.update st1.1 i 0)
        have heq : gcount n g (Function.update st1.1 i 0) = gcount n g st.1 := by
          apply gcount_congr
          intro p _
          by_cases hpi : p = i
          · subst hpi
            rw [Function.update_same, hskip]
          · rw [Function.update_noteq hpi, hpts p hpi]
        rw [heq]
        exact hinv.big g hg1 hg2'
      · intro p hp
        have hpi : p ≠ i := by omega
        show Function.update st1.1 i 0 p = 0
        rw [Function.update_noteq hpi, hpts p hpi]
        exact hinv.oob p hp
    · simp only [if_neg hsize]
      have hmono := ExpGrows.count_mono n st.2 hgid0 _ _ hgrow
      simp only at hmono
      rw [hga] at hmono
      have hge2 : 2 ≤ gcount n st.2 st1.1 := by omega
      constructor
      · show 1 ≤ st.2 + 1
        omega
      · intro p hp
        have hp' : st1.1 p ≠ 0 := hp
        show st1.1 p < st.2 + 1
        rcases hgrow.1 p with h1 | ⟨_, _, hpg⟩
        · have h1' : st1.1 p = Function.update st.1 i st.2 p := h1
          rw [h1'] at hp' ⊢
          by_cases hpi : p = i
          · subst hpi
            rw [Function.update_same]
            omega
          · rw [Function.update_noteq hpi] at hp' ⊢
            have := hinv.lt p hp'
            omega
        · rw [hpg]
          omega
      · intro g hg1 hg2
        have hg2' : g < st.2 + 1 := hg2
        show 2 ≤ gcount n g st1.1
        by_cases hgtop : g = st.2
        · subst hgtop
          exact hge2
        · have hglt : g < st.2 := by omega
          have h1 : gcount n g st1.1 =
              gcount n g (Function.update st.1 i st.2) :=
            ExpGrows.count_other n st.2 _ _ hgrow g (by omega) hgtop
          have h2 : gcount n g (Function.update st.1 i st.2) =
              gcount n g st.1 :=
            gcount_update_other n g i st.2 st.1
              (by rw [hskip]; omega) (by omega)
          rw [h1, h2]
          exact hinv.big g hg1 hglt
      · intro p hp
        show st1.1 p = 0
        rcases hgrow.1 p with h1 | ⟨hpn, _, _⟩
        · have hpi : p ≠ i := by omega
          have h1' : st1.1 p = Function.update st.1 i st.2 p := h1
          rw [h1', Function.update_noteq hpi]
          exact hinv.oob p hp
        · omega

theorem outerFold_inv (n : ℕ) (m : ℚ) (d : ℕ → ℕ → ℚ) (l : List ℕ)
    (hl : ∀ i ∈ l, i < n) :
    ∀ st : (ℕ → ℕ) × ℕ, OuterInv n st →
      OuterInv n (l.foldl (outerStep n m d) st) := by
  induction l with
  | nil =>
    intro st h
    exact h
  | cons i t ih =>
    intro st h
    simp only [List.foldl_cons]
    exact ih (fun q hq => hl q (List.mem_cons_of_mem i hq)) _
      (outerStep_inv n m d st i (hl i (List.mem_cons_self i t)) h)

/-- Committed groups have at least two members each and are disjoint,
so the committed group count of `hwloc_setup_group_from_min_distance`
is at most half the object count. -/
theorem twice_groups_le_nbobjs (n : ℕ) (d : ℕ → ℕ → ℚ) :
    2 * (hwloc_setup_group_from_min_distance n d).1 ≤ n := by
  unfold hwloc_setup_group_from_min_distance
  cases hmin : minOffDiag n d with
  | none => exact Nat.zero_le n
  | some m =>
    show 2 * (((List.range n).foldl (outerStep n m d) (fun _ => 0, 1)).2 - 1) ≤ n
    set r := (List.range n).foldl (outerStep n m d) (fun _ => 0, 1) with hr
    have hinv : OuterInv n r := by
      apply outerFold_inv n m d (List.range n) (fun i hi => List.mem_range.mp hi)
      exact ⟨le_rfl, fun p hp => absurd rfl hp, fun g hg1 hg2 => by omega,
        fun p _ => rfl⟩
    have hdisj : ∀ g₁ ∈ Finset.Ico 1 r.2, ∀ g₂ ∈ Finset.Ico 1 r.2, g₁ ≠ g₂ →
        Disjoint ((Finset.range n).filter fun p => r.1 p = g₁)
          ((Finset.range n).filter fun p => r.1 p = g₂) := by
      intro g₁ _ g₂ _ hne
      rw [Finset.disjoint_left]
      intro a ha1 ha2
      have h1 := (Finset.mem_filter.mp ha1).2
      have h2 := (Finset.mem_filter.mp ha2).2
      exact hne (h1.symm.trans h2)
    have hcardB :
        ((Finset.Ico 1 r.2).biUnion
          fun g => (Finset.range n).filter fun p => r.1 p = g).card =
        ∑ g ∈ Finset.Ico 1 r.2,
          ((Finset.range n).filter fun p => r.1 p = g).card :=
      Finset.card_biUnion hdisj
    have hsub :
        ((Finset.Ico 1 r.2).biUnion
          fun g => (Finset.range n).filter fun p => r.1 p = g) ⊆
        Finset.range n := by
      intro p hp
      simp only [Finset.mem_biUnion] at hp
      obtain ⟨g, _, hg⟩ := hp
      exact (Finset.mem_filter.mp hg).1
    have hsum : 2 * (r.2 - 1) ≤
        ∑ g ∈ Finset.Ico 1 r.2,
          ((Finset.range n).filter fun p => r.1 p = g).card := by
      calc 2 * (r.2 - 1) = ∑ _g ∈ Finset.Ico 1 r.2, 2 := by
            rw [Finset.sum_const, Nat.card_Ico, smul_eq_mul]
            ring
        _ ≤ _ := by
            apply Finset.sum_le_sum
            intro g hg
            simp only [Finset.mem_Ico] at hg
            exact hinv.big g hg.1 hg.2
    have hle := Finset.card_le_card hsub
    rw [hcardB] at hle
    rw [Finset.card_range] at hle
    omega

/-- The recursion of `hwloc__setup_groups_from_distances` reaches its
natural stopping point within `n` levels: any fuel of at least the
object count yields the same result, because each recursive invocation
is on the committed group count, which is strictly smaller than the
current object count. -/
theorem setup_groups_rec_fuel_stable (n : ℕ) :
    ∀ (f1 f2 : ℕ) (objs : ℕ → Finset ℕ) (d : ℕ → ℕ → ℚ) (depth : ℕ),
      n ≤ f1 → n ≤ f2 →
      hwloc__setup_groups_from_distances f1 n objs d depth =
        hwloc__setup_groups_from_distances f2 n objs d depth := by
  induction n using Nat.strong_induction_on with
  | _ n ih =>
    intro f1 f2 objs d depth h1 h2
    cases f1 with
    | zero =>
      have hn : n = 0 := by omega
      subst hn
      cases f2 with
      | zero => rfl
      | succ f2' => simp [hwloc__setup_groups_from_distances]
    | succ f1' =>
      cases f2 with
      | zero =>
        have hn : n = 0 := by omega
        subst hn
        simp [hwloc__setup_groups_from_distances]
      | succ f2' =>
        by_cases hle : n ≤ 2
        · simp [hwloc__setup_groups_from_distances, hle]
        · by_cases h0 : (hwloc_setup_group_from_min_distance n d).1 = 0
          · simp [hwloc__setup_groups_from_distances, hle, h0]
          · by_cases hg1 : (hwloc_setup_group_from_min_distance n d).1 = 1
            · simp [hwloc__setup_groups_from_distances, hle, h0, hg1]
            · have htwice := twice_groups_le_nbobjs n d
              have hlt : (hwloc_setup_group_from_min_distance n d).1 < n := by
                omega
              simp only [hwloc__setup_groups_from_distances, if_neg hle,
                if_neg h0, if_neg hg1]
              congr 1
              exact ih _ hlt f1' f2' _ _ (depth + 1) (by omega) (by omega)

/-! ## Claim theorems -/

/-- C6: a `setMatrix` call whose indexes sequence contains two equal
entries fails with return value `-1` and `errno = EINVAL`, leaving the
previously stored `nbobjs`, `indexes` and `distances` for that type
unchanged; when all entries are distinct the call succeeds (return `0`)
and replaces both `indexes` and `distances` together. -/
theorem C6_setMatrix_duplicate_rejection (entry : OsDistEntry) (errno : ℤ)
    (nbobjs : ℕ) (indexes : List ℕ) (distances : ℕ → ℕ → ℚ) :
    ((∃ i j, i < j ∧ j < nbobjs ∧ indexes.getD i 0 = indexes.getD j 0) →
      hwloc_topology__set_distance_matrix entry errno nbobjs indexes
        distances = (-1, EINVAL, entry)) ∧
    ((¬ ∃ i j, i < j ∧ j < nbobjs ∧ indexes.getD i 0 = indexes.getD j 0) →
      hwloc_topology__set_distance_matrix entry errno nbobjs indexes
        distances =
        (0, errno,
          { entry with nbobjs := nbobjs, indexes := some indexes,
                       distances := some distances })) := by
  constructor
  · intro hdup
    have hb : hasDupIndexes nbobjs indexes = true :=
      (hasDupIndexes_eq_true_iff nbobjs indexes).mpr hdup
    simp [hwloc_topology__set_distance_matrix, hb]
  · intro hnodup
    have hb : ¬ hasDupIndexes nbobjs indexes = true := fun hc =>
      hnodup ((hasDupIndexes_eq_true_iff nbobjs indexes).mp hc)
    simp [hwloc_topology__set_distance_matrix, hb]

/-- The stored slot used in the C6 witness: a previously installed
matrix that a rejected call must leave untouched. -/
def c6entry : OsDistEntry := ⟨2, some [0, 1], some (fun _ _ => 7), none⟩

theorem C6_setMatrix_duplicate_rejection_witness :
    hwloc_topology__set_distance_matrix c6entry 0 2 [3, 3] (fun _ _ => 1) =
      (-1, EINVAL, c6entry) ∧
    hwloc_topology__set_distance_matrix c6entry 0 2 [5, 7] (fun _ _ => 1) =
      (0, 0,
        { c6entry with nbobjs := 2, indexes := some [5, 7],
                       distances := some (fun _ _ => 1) }) := by
  constructor
  · exact (C6_setMatrix_duplicate_rejection c6entry 0 2 [3, 3]
      (fun _ _ => 1)).1 ⟨0, 1, by omega, by omega, rfl⟩
  · refine (C6_setMatrix_duplicate_rejection c6entry 0 2 [5, 7]
      (fun _ _ => 1)).2 ?_
    intro hex
    have hb := (hasDupIndexes_eq_true_iff 2 [5, 7]).mpr hex
    have hf : hasDupIndexes 2 [5, 7] = false := by decide
    rw [hf] at hb
    cases hb

/-- C4: a valid grouping-shorthand configuration (`X*Y*Z = N`, `Z`
defaulting to 1, distinct indexes) installs the `N×N` matrix with
`entry(i,i)=1`, `entry(i,j)=2` when `i/Z = j/Z`, else `4` when
`i/(Z*Y) = j/(Z*Y)`, else `8`; the indexes are installed alongside. -/
theorem C4_grouping_shorthand_matrix (indexes : List ℕ) (x y z : ℕ)
    (entry : OsDistEntry) (errno : ℤ)
    (hxyz : x * y * z = indexes.length)
    (hnodup : ¬ ∃ i j, i < j ∧ j < indexes.length ∧
      indexes.getD i 0 = indexes.getD j 0) :
    ∃ f,
      (hwloc_get_type_distances_from_string_grouping entry errno indexes
        x y z).distances = some f ∧
      (hwloc_get_type_distances_from_string_grouping entry errno indexes
        x y z).indexes = some indexes ∧
      (hwloc_get_type_distances_from_string_grouping entry errno indexes
        x y z).nbobjs = indexes.length ∧
      ∀ i j, f i j =
        if i = j then 1
        else if i / z = j / z then 2
        else if i / (z * y) = j / (z * y) then 4
        else 8 := by
  have hb : ¬ hasDupIndexes indexes.length indexes = true := fun hc =>
    hnodup ((hasDupIndexes_eq_true_iff indexes.length indexes).mp hc)
  refine ⟨fun i j =>
    if i = j then 1
    else if i / z = j / z then 2
    else if i / z / y = j / z / y then 4
    else 8, ?_, ?_, ?_, ?_⟩
  · simp [hwloc_get_type_distances_from_string_grouping, hxyz,
      hwloc_topology__set_distance_matrix, hb]
  · simp [hwloc_get_type_distances_from_string_grouping, hxyz,
      hwloc_topology__set_distance_matrix, hb]
  · simp [hwloc_get_type_distances_from_string_grouping, hxyz,
      hwloc_topology__set_distance_matrix, hb]
  · intro i j
    simp only
    rw [Nat.div_div_eq_div_mul, Nat.div_div_eq_div_mul]

theorem C4_grouping_shorthand_matrix_witness :
    ∃ f,
      (hwloc_get_type_distances_from_string_grouping initOsDistEntry 0
        [0, 1, 2, 3] 2 2 1).distances = some f ∧
      f 0 0 = 1 ∧ f 1 1 = 1 ∧ f 2 2 = 1 ∧ f 3 3 = 1 ∧
      f 0 1 = 4 ∧ f 1 0 = 4 ∧ f 2 3 = 4 ∧ f 3 2 = 4 ∧
      f 0 2 = 8 ∧ f 0 3 = 8 ∧ f 1 2 = 8 ∧ f 1 3 = 8 := by
  obtain ⟨f, hf, _, _, hval⟩ :=
    C4_grouping_shorthand_matrix [0, 1, 2, 3] 2 2 1 initOsDistEntry 0
      (by decide)
      (by
        intro hex
        have hb := (hasDupIndexes_eq_true_iff 4 [0, 1, 2, 3]).mpr hex
        have hff : hasDupIndexes 4 [0, 1, 2, 3] = false := by decide
        rw [hff] at hb
        cases hb)
  refine ⟨f, hf, ?_, ?_, ?_, ?_, ?_, ?_, ?_, ?_, ?_, ?_, ?_, ?_⟩ <;>
    rw [hval] <;> norm_num

/-- C8: for a type with a stored raw index list, resolution leaves
`nbobjs`, `indexes` and `distances` unchanged; when every index
resolves, the resolved sequence has the same length and order as the
index list, each position holding an object of the requested type and
identifier; when any index fails, the resolved sequence is entirely
absent. -/
theorem C8_resolver_all_or_nothing (root : HTree) (t : ℕ)
    (entry : OsDistEntry) (idxs : List ℕ)
    (hidx : entry.indexes = some idxs) :
    ((hwloc_convert_distances_indexes_into_objects root t entry).indexes =
        entry.indexes ∧
     (hwloc_convert_distances_indexes_into_objects root t entry).distances =
        entry.distances ∧
     (hwloc_convert_distances_indexes_into_objects root t entry).nbobjs =
        entry.nbobjs) ∧
    ((∀ i ∈ idxs, hwloc_find_obj_by_type_and_os_index t i root ≠ none) →
      ∃ os,
        (hwloc_convert_distances_indexes_into_objects root t entry).objs =
          some os ∧
        os.length = idxs.length ∧
        ∀ k, k < idxs.length →
          (os.getD k default).attr.obj_type = t ∧
          (os.getD k default).attr.os_index = idxs.getD k 0 ∧
          hwloc_find_obj_by_type_and_os_index t (idxs.getD k 0) root =
            some (os.getD k default)) ∧
    ((∃ i ∈ idxs, hwloc_find_obj_by_type_and_os_index t i root = none) →
      (hwloc_convert_distances_indexes_into_objects root t entry).objs =
        none) := by
  refine ⟨?_, ?_, ?_⟩
  · simp [hwloc_convert_distances_indexes_into_objects, hidx]
  · intro hall
    cases hres : resolveIndexesList root t idxs with
    | none =>
      obtain ⟨i, hi, hni⟩ :=
        (resolveIndexesList_eq_none_iff root t idxs).mp hres
      exact absurd hni (hall i hi)
    | some os =>
      obtain ⟨hlen, hk⟩ := resolveIndexesList_some root t idxs os hres
      refine ⟨os, ?_, hlen, ?_⟩
      · simp [hwloc_convert_distances_indexes_into_objects, hidx, hres]
      · intro k hklt
        have hfind := hk k hklt
        obtain ⟨ht, ho⟩ := find_sound root t (idxs.getD k 0) _ hfind
        exact ⟨ht, ho, hfind⟩
  · intro hex
    have hres : resolveIndexesList root t idxs = none :=
      (resolveIndexesList_eq_none_iff root t idxs).mpr hex
    simp [hwloc_convert_distances_indexes_into_objects, hidx, hres]

/-- The topology tree used by the C8 witness: a root (type 0) with two
children of type 1 with OS indexes 4 and 9. -/
def c8root : HTree :=
  .node ⟨0, 0, 0, 0, {0, 1}⟩
    [.node ⟨1, 4, 0, 1, {0}⟩ [], .node ⟨1, 9, 1, 1, {1}⟩ []]

/-- The stored slot used by the C8 witness: indexes `[9, 4]` for
type 1, plus indexes containing the unknown OS index 5 in a second
variant below. -/
def c8entry : OsDistEntry := ⟨2, some [9, 4], some (fun _ _ => 1), none⟩

def c8entryBad : OsDistEntry := ⟨2, some [9, 5], some (fun _ _ => 1), none⟩

theorem C8_resolver_all_or_nothing_witness :
    (∃ os,
      (hwloc_convert_distances_indexes_into_objects c8root 1 c8entry).objs =
        some os ∧
      os.length = 2 ∧
      ∀ k, k < 2 →
        (os.getD k default).attr.obj_type = 1 ∧
        (os.getD k default).attr.os_index = [9, 4].getD k 0 ∧
        hwloc_find_obj_by_type_and_os_index 1 ([9, 4].getD k 0) c8root =
          some (os.getD k default)) ∧
    (hwloc_convert_distances_indexes_into_objects c8root 1 c8entryBad).objs =
      none := by
  constructor
  · refine ((C8_resolver_all_or_nothing c8root 1 c8entry [9, 4] rfl).2.1 ?_)
    intro i hi
    rcases List.mem_cons.mp hi with h | h
    · subst h
      simp [c8root, hwloc_find_obj_by_type_and_os_index, findInChildren]
    · rcases List.mem_cons.mp h with h2 | h2
      · subst h2
        simp [c8root, hwloc_find_obj_by_type_and_os_index, findInChildren]
      · cases h2
  · refine ((C8_resolver_all_or_nothing c8root 1 c8entryBad [9, 5] rfl).2.2 ?_)
    refine ⟨5, ?_, ?_⟩
    · simp
    · simp [c8root, hwloc_find_obj_by_type_and_os_index, findInChildren]

/-- C7: a raw matrix whose global minimum is `0` is abandoned by
normalization — the root's distances list is returned unchanged, no
record attached; a raw matrix with strictly positive global minimum,
whose covering root's cpuset equals the union of the objects' cpusets,
gets a record appended. -/
theorem C7_zero_min_abandons (n : ℕ) (objs : ℕ → ObjAttr)
    (osmatrix : ℕ → ℕ → ℚ) (root : ObjAttr)
    (rootDistances : List hwloc_distances_s) (_h0 : 0 < n) :
    (entriesMin n osmatrix = 0 →
      hwloc_setup_distances_from_os_matrix n objs osmatrix root
        rootDistances = rootDistances) ∧
    (cpusetUnion n objs = root.cpuset → 0 < entriesMin n osmatrix →
      ∃ rec,
        hwloc_setup_distances_from_os_matrix n objs osmatrix root
          rootDistances = rootDistances ++ [rec]) := by
  constructor
  · intro hzero
    unfold hwloc_setup_distances_from_os_matrix
    by_cases hset : cpusetUnion n objs = root.cpuset
    · simp [hset, hzero]
    · simp [hset]
  · intro hset hpos
    unfold hwloc_setup_distances_from_os_matrix
    have hne : entriesMin n osmatrix ≠ 0 := ne_of_gt hpos
    simp only [hset, ne_eq, not_true_eq_false, if_false, if_neg hne]
    exact ⟨_, rfl⟩

/-- Objects, matrices and root for the C7 witness: `c7objsA` with a
zero-entry matrix (abandoned), `c7rawB` with minimum 1 (accepted). -/
def c7objs : ℕ → ObjAttr := fun i =>
  if i = 0 then ⟨1, 0, 0, 1, {0}⟩ else ⟨1, 1, 1, 1, {1}⟩

def c7root : ObjAttr := ⟨0, 0, 0, 0, {0, 1}⟩

def c7rawA : ℕ → ℕ → ℚ := fun i j => if i = j then 0 else 3

def c7rawB : ℕ → ℕ → ℚ := fun i j => if i = j then 1 else 3

def c7prior : hwloc_distances_s := ⟨0, 1, fun _ => 1, 1, 1⟩

theorem C7_zero_min_abandons_witness :
    hwloc_setup_distances_from_os_matrix 2 c7objs c7rawA c7root [c7prior] =
      [c7prior] ∧
    ∃ rec,
      hwloc_setup_distances_from_os_matrix 2 c7objs c7rawB c7root [c7prior] =
        [c7prior] ++ [rec] := by
  constructor
  · exact (C7_zero_min_abandons 2 c7objs c7rawA c7root [c7prior]
      (by omega)).1 (by decide)
  · exact (C7_zero_min_abandons 2 c7objs c7rawB c7root [c7prior]
      (by omega)).2 (by decide) (by decide)

/-- C5: when normalization succeeds (covering root matches, nonzero
minimum) and the reindexed logical positions are injective and in range
(the tree invariant for distinct same-level objects), the stored record
satisfies: the cell at row `logical_index(objs[i]) - minl` and column
`logical_index(objs[j]) - minl` equals `osmatrix[i][j]` divided by the
global minimum, for all `i, j`; `latency_base` is that minimum and
`latency_max` is the raw maximum divided by it. -/
theorem C5_normalization_roundtrip (n : ℕ) (objs : ℕ → ObjAttr)
    (osmatrix : ℕ → ℕ → ℚ) (root : ObjAttr)
    (rootDistances : List hwloc_distances_s)
    (hset : cpusetUnion n objs = root.cpuset)
    (hmin : entriesMin n osmatrix ≠ 0)
    (hbound : ∀ i, i < n →
      (objs i).logical_index - minLogicalIndex n objs < n)
    (hinj : ∀ i, i < n → ∀ j, j < n →
      (objs i).logical_index - minLogicalIndex n objs =
        (objs j).logical_index - minLogicalIndex n objs → i = j) :
    ∃ rec,
      hwloc_setup_distances_from_os_matrix n objs osmatrix root
        rootDistances = rootDistances ++ [rec] ∧
      rec.nbobjs = n ∧
      rec.latency_base = entriesMin n osmatrix ∧
      rec.latency_max = entriesMax n osmatrix / entriesMin n osmatrix ∧
      ∀ i j, i < n → j < n →
        rec.latency
          (((objs i).logical_index - minLogicalIndex n objs) * n +
            ((objs j).logical_index - minLogicalIndex n objs)) =
          osmatrix i j / entriesMin n osmatrix := by
  unfold hwloc_setup_distances_from_os_matrix
  simp only [hset, ne_eq, not_true_eq_false, if_false, if_neg hmin]
  refine ⟨_, rfl, rfl, rfl, rfl, ?_⟩
  intro i j hi hj
  exact normWrites_lookup n (fun k => (objs k).logical_index -
    minLogicalIndex n objs) (fun a b => osmatrix a b / entriesMin n osmatrix)
    (fun _ => 0) hbound (fun a b ha hb => hinj a ha b hb) i j hi hj

def c5objs : ℕ → ObjAttr := fun i =>
  if i = 0 then ⟨1, 0, 6, 1, {0}⟩ else ⟨1, 1, 5, 1, {1}⟩

def c5root : ObjAttr := ⟨0, 0, 0, 0, {0, 1}⟩

def c5raw : ℕ → ℕ → ℚ := fun i j =>
  if i = j then 2 else if i = 0 then 6 else 10

theorem C5_normalization_roundtrip_witness :
    ∃ rec,
      hwloc_setup_distances_from_os_matrix 2 c5objs c5raw c5root [] =
        [] ++ [rec] ∧
      rec.nbobjs = 2 ∧
      rec.latency_base = entriesMin 2 c5raw ∧
      rec.latency_max = entriesMax 2 c5raw / entriesMin 2 c5raw ∧
      ∀ i j, i < 2 → j < 2 →
        rec.latency
          (((c5objs i).logical_index - minLogicalIndex 2 c5objs) * 2 +
            ((c5objs j).logical_index - minLogicalIndex 2 c5objs)) =
          c5raw i j / entriesMin 2 c5raw :=
  C5_normalization_roundtrip 2 c5objs c5raw c5root [] (by decide) (by decide)
    (by decide) (by decide)

/-- C2 (amended): when normalization succeeds and every raw diagonal
entry equals the matrix's global minimum, every diagonal cell of the
stored normalized matrix equals 1 exactly.  (The normalizer itself never
validates the diagonal, so the extra hypothesis is necessary: see the
counterexample.) -/
theorem C2_diagonal_one_of_min_diagonal (n : ℕ) (objs : ℕ → ObjAttr)
    (osmatrix : ℕ → ℕ → ℚ) (root : ObjAttr)
    (rootDistances : List hwloc_distances_s)
    (hset : cpusetUnion n objs = root.cpuset)
    (hmin : entriesMin n osmatrix ≠ 0)
    (hbound : ∀ i, i < n →
      (objs i).logical_index - minLogicalIndex n objs < n)
    (hinj : ∀ i, i < n → ∀ j, j < n →
      (objs i).logical_index - minLogicalIndex n objs =
        (objs j).logical_index - minLogicalIndex n objs → i = j)
    (hdiag : ∀ i, i < n → osmatrix i i = entriesMin n osmatrix) :
    ∃ rec,
      hwloc_setup_distances_from_os_matrix n objs osmatrix root
        rootDistances = rootDistances ++ [rec] ∧
      ∀ i, i < n →
        rec.latency
          (((objs i).logical_index - minLogicalIndex n objs) * n +
            ((objs i).logical_index - minLogicalIndex n objs)) = 1 := by
  unfold hwloc_setup_distances_from_os_matrix
  simp only [hset, ne_eq, not_true_eq_false, if_false, if_neg hmin]
  refine ⟨_, rfl, ?_⟩
  intro i hi
  have hcell := normWrites_lookup n (fun k => (objs k).logical_index -
    minLogicalIndex n objs) (fun a b => osmatrix a b / entriesMin n osmatrix)
    (fun _ => 0) hbound (fun a b ha hb => hinj a ha b hb) i i hi hi
  simp only at hcell
  rw [hdiag i hi, div_self hmin] at hcell
  exact hcell

def c2objs : ℕ → ObjAttr := fun i =>
  if i = 0 then ⟨1, 0, 0, 1, {0}⟩ else ⟨1, 1, 1, 1, {1}⟩

def c2root : ObjAttr := ⟨0, 0, 0, 0, {0, 1}⟩

/-- A raw matrix whose diagonal (2) is strictly larger than its
off-diagonal entries (1): its global minimum is 1, so normalization
succeeds, yet the normalized diagonal is 2, not 1. -/
def c2raw : ℕ → ℕ → ℚ := fun i j => if i = j then 2 else 1

/-- Counterexample to C2 as stated: this normalization succeeds (one
record is attached) but the stored diagonal cell (0,0) is `2 ≠ 1`. -/
theorem C2_diagonal_counterexample :
    (hwloc_setup_distances_from_os_matrix 2 c2objs c2raw c2root []).length
      = 1 ∧
    ((hwloc_setup_distances_from_os_matrix 2 c2objs c2raw c2root
      []).head?).map (fun rec => rec.latency 0) = some (2 / 1) ∧
    ((2 : ℚ) / 1) ≠ 1 := by
  refine ⟨rfl, rfl, by norm_num⟩

theorem C2_diagonal_one_of_min_diagonal_witness :
    ∃ rec,
      hwloc_setup_distances_from_os_matrix 2 c7objs c7rawB c7root [] =
        [] ++ [rec] ∧
      ∀ i, i < 2 →
        rec.latency
          (((c7objs i).logical_index - minLogicalIndex 2 c7objs) * 2 +
            ((c7objs i).logical_index - minLogicalIndex 2 c7objs)) = 1 :=
  C2_diagonal_one_of_min_diagonal 2 c7objs c7rawB c7root [] (by decide)
    (by decide) (by decide) (by decide) (by decide)

/-- C1 (amended): grouping proceeds past validation iff every
upper-triangle pair `i < j < n` is symmetric (`m[i][j] = m[j][i]`) and
strictly exceeds the diagonal entry of its row `i`
(`m[i][i] < m[i][j]`); any violation of these checked conditions aborts
the whole matrix's grouping with zero Group nodes.  The check never
compares an entry against the column diagonal `m[j][j]`, so full strict
diagonal minimality (`m[i][i] < m[i][j]` for every `j ≠ i`) is *not*
required — see the counterexample. -/
theorem C1_validation_gate (n : ℕ) (objs : ℕ → Finset ℕ) (d : ℕ → ℕ → ℚ) :
    (matrixValidCheck n d = true ↔
      ∀ i j, i < j → j < n → d i j = d j i ∧ d i i < d i j) ∧
    (matrixValidCheck n d = false →
      hwloc_setup_groups_from_distances false n objs d = []) := by
  constructor
  · unfold matrixValidCheck
    simp only [List.all_eq_true, List.mem_range, List.mem_range'_1,
      Bool.and_eq_true, beq_iff_eq, decide_eq_true_eq]
    constructor
    · intro h i j hij hj
      exact h i (by omega) j ⟨by omega, by omega⟩
    · intro h i hi j hj
      exact h i j (by omega) (by omega)
  · intro hfalse
    unfold hwloc_setup_groups_from_distances
    simp [hfalse]

def c1objs : ℕ → Finset ℕ := fun j => {j}

/-- The 4×4 matrix `[[1,3,6,6],[3,5,6,6],[6,6,1,3],[6,6,3,5]]`: fully
symmetric, every upper-triangle entry exceeds the diagonal of its row,
but `m[1][0] = 3 < 5 = m[1][1]` violates strict diagonal minimality as
stated in the claim. -/
def c1d : ℕ → ℕ → ℚ := fun i j =>
  if i = j then (if i % 2 = 0 then 1 else 5)
  else if i / 2 = j / 2 then 3
  else 6

/-- Counterexample to C1 as stated: `c1d` is not strictly diagonally
minimal (`m[1][0] < m[1][1]`), yet validation passes and grouping
creates two Group nodes instead of zero. -/
theorem C1_validation_gate_counterexample :
    matrixValidCheck 4 c1d = true ∧
    (hwloc_setup_groups_from_distances false 4 c1objs c1d).length = 2 ∧
    c1d 1 0 < c1d 1 1 := by decide

def c1dbad : ℕ → ℕ → ℚ := fun i j => if i = j then 5 else 3

theorem C1_validation_gate_witness :
    matrixValidCheck 2 c1dbad = false ∧
    hwloc_setup_groups_from_distances false 2 c1objs c1dbad = [] :=
  ⟨by decide, (C1_validation_gate 2 c1objs c1dbad).2 (by decide)⟩

/-- The four objects of C3, with cpusets `{2j, 2j+1}`. -/
def c3objs : ℕ → Finset ℕ := fun j => {2 * j, 2 * j + 1}

/-- The C3 matrix: diagonal 0, entries (0,1) and (2,3) equal to 10
(symmetric), all other off-diagonal entries 20. -/
def c3d : ℕ → ℕ → ℚ := fun i j =>
  if i = j then 0
  else if i / 2 = j / 2 then 10
  else 20

/-- C3: on the 4-object matrix with diagonal 0, entries (0,1) and (2,3)
equal to 10 and all other off-diagonal entries 20, clustering commits
exactly 2 groups of 2 members each ({0,1} with id 1 and {2,3} with
id 2), and grouping materializes exactly one Group node per group whose
cpuset is the union of its two members' cpusets. -/
theorem C3_four_objects_two_groups :
    (hwloc_setup_group_from_min_distance 4 c3d).1 = 2 ∧
    (hwloc_setup_group_from_min_distance 4 c3d).2 0 = 1 ∧
    (hwloc_setup_group_from_min_distance 4 c3d).2 1 = 1 ∧
    (hwloc_setup_group_from_min_distance 4 c3d).2 2 = 2 ∧
    (hwloc_setup_group_from_min_distance 4 c3d).2 3 = 2 ∧
    groupSize 4 0 (hwloc_setup_group_from_min_distance 4 c3d).2 = 2 ∧
    groupSize 4 1 (hwloc_setup_group_from_min_distance 4 c3d).2 = 2 ∧
    hwloc_setup_groups_from_distances false 4 c3objs c3d =
      [⟨c3objs 0 ∪ c3objs 1, 0⟩, ⟨c3objs 2 ∪ c3objs 3, 0⟩] := by
  decide

/-- C9: the recursive grouping procedure terminates on every input:
whenever a level commits at least 2 groups its count is strictly smaller
than the current object count (committed groups are disjoint with at
least 2 members each), and the recursion reaches its natural stopping
point (0 or 1 groups, or at most 2 objects) within `nbobjs` levels —
any recursion-depth budget of at least `nbobjs` computes the same
result. -/
theorem C9_recursion_terminates (n : ℕ) (d : ℕ → ℕ → ℚ) :
    (2 ≤ (hwloc_setup_group_from_min_distance n d).1 →
      (hwloc_setup_group_from_min_distance n d).1 < n) ∧
    (∀ (objs : ℕ → Finset ℕ) (depth fuel : ℕ), n ≤ fuel →
      hwloc__setup_groups_from_distances fuel n objs d depth =
        hwloc__setup_groups_from_distances n n objs d depth) := by
  constructor
  · intro h2
    have := twice_groups_le_nbobjs n d
    omega
  · intro objs depth fuel hf
    exact setup_groups_rec_fuel_stable n fuel n objs d depth hf le_rfl

def c9objs : ℕ → Finset ℕ := fun j => {j}

def c9d : ℕ → ℕ → ℚ := fun i j =>
  if i = j then 0 else if i / 2 = j / 2 then 1 else 9

theorem C9_recursion_terminates_witness :
    (hwloc_setup_group_from_min_distance 4 c9d).1 < 4 ∧
    hwloc__setup_groups_from_distances 9 4 c9objs c9d 0 =
      hwloc__setup_groups_from_distances 4 4 c9objs c9d 0 :=
  ⟨(C9_recursion_terminates 4 c9d).1 (by decide),
   (C9_recursion_terminates 4 c9d).2 c9objs 0 9 (by omega)⟩

/-- The C10 failing input: 5 objects, diagonal 0, pairs (0,1) and (2,3)
at the minimal distance 1, object 4 at distance 5 from everyone.  The
matrix passes grouping validation. -/
def c10d : ℕ → ℕ → ℚ := fun i j =>
  if i = j then 0
  else if i / 2 = j / 2 ∧ i < 4 ∧ j < 4 then 1
  else 5

/-- C10 fails on the code: on `c10d` the clustering commits 2 groups
({0,1} and {2,3}) yet leaves position 4 ungrouped (`groupids[4] = 0`).
The factorization loop of distances.c:490-492 then computes the
`unsigned` index `groupids[4] - 1`, which wraps to `2^32 - 1 ≥ 2` and
makes `groupdistances[groupids[4]-1][...]` an out-of-bounds write. -/
theorem C10_ungrouped_position_bug :
    matrixValidCheck 5 c10d = true ∧
    2 ≤ (hwloc_setup_group_from_min_distance 5 c10d).1 ∧
    (hwloc_setup_group_from_min_distance 5 c10d).2 4 = 0 ∧
    ((hwloc_setup_group_from_min_distance 5 c10d).2 4 + (2 ^ 32 - 1)) %
      2 ^ 32 = 2 ^ 32 - 1 := by
  decide

end Liblstopo
